import Mathlib

/-!
Verification of the MySQL-compatible JSON extraction and unquote functions
of `src/util/codec/mysql/json/functions.rs`.

The JSON value model, the path-leg type and the two wildcard sentinels live
in sibling modules (`json/mod.rs`, `json/path_expr.rs`) that are not part of
the sources; they are modelled from the specification.  The functions
`extract`, `unquote`, `unquote_string`, `decode_escaped_unicode` and
`extract_json` are translated directly from `functions.rs`.
-/

/-- Modelled from the spec: the JSON value model of `json/mod.rs` (not among
the sources), a closed tagged union with variants absent/null, boolean,
64-bit signed integer, 64-bit float, text, array (ordered sequence) and
object (key-ordered mapping, represented as its ordered entry list).  The
float payload is carried as its 64-bit pattern; neither extraction nor
unquoting ever inspects it. -/
inductive Json where
  | None : Json
  | Boolean (b : Bool) : Json
  | I64 (v : Int) : Json
  | Double (bits : Nat) : Json
  | String (s : List Char) : Json
  | Array (elems : List Json) : Json
  | Object (entries : List (Prod (List Char) Json)) : Json

/-- Modelled from the spec: one step of a path expression
(`json/path_expr.rs`, not among the sources): an array index (with a
sentinel for the wildcard), an object key (with a sentinel string for the
wildcard), or the recursive double-wildcard. -/
inductive PathLeg where
  | Index (i : Int) : PathLeg
  | Key (k : List Char) : PathLeg
  | DoubleAsterisk : PathLeg

/-- Modelled from the spec: the sentinel index meaning "every array
element"; in `json/path_expr.rs` it is the `i32` value -1, a value no valid
parsed index can take. -/
def PATH_EXPR_ARRAY_INDEX_ASTERISK : Int := -1

/-- Modelled from the spec: the sentinel key meaning "every object entry";
in `json/path_expr.rs` it is the string "*". -/
def PATH_EXPR_ASTERISK : List Char := ['*']

/-- Modelled from the spec: a path expression is an ordered leg sequence
plus descriptive flags consumed only by callers outside this core; the
flags are carried as an opaque number. -/
structure PathExpression where
  legs : List PathLeg
  flags : Nat

/-- The Rust cast `i as usize` applied to an `i32` on a 64-bit platform:
sign-extension to 64 bits reinterpreted as an unsigned integer. -/
def usizeOfI32 (i : Int) : Nat := (i % (2 : Int) ^ 64).toNat

/-- Looks a key up in an object entry list: the Rust `map.contains_key` /
`map[key]` pair on a `BTreeMap`, which returns the (unique) entry holding
that key if there is one. -/
def objectFind (entries : List (Prod (List Char) Json)) (key : List Char) :
    Option (Prod (List Char) Json) :=
  entries.find? (fun e => e.1 == key)

/-- Translation of `extract_json` (functions.rs:112-166).  The `ret`
accumulator built by successive `append` calls is rendered as the
concatenation (`flatten` of `map`) of the recursive results; `map.keys()`
iteration followed by `map[key]` on the `BTreeMap` is rendered as iteration
over the entry values in key order. -/
def extract_json (j : Json) (path_legs : List PathLeg) : List Json :=
  match path_legs with
  | [] => [j]
  | current_leg :: sub_path_legs =>
    match current_leg with
    | PathLeg.Index i =>
      match j with
      | Json.Array array =>
        if i = PATH_EXPR_ARRAY_INDEX_ASTERISK then
          (array.attach.map (fun c => extract_json c.1 sub_path_legs)).flatten
        else if h : usizeOfI32 i < array.length then
          extract_json (array.get ⟨usizeOfI32 i, h⟩) sub_path_legs
        else []
      | other =>
        if i = PATH_EXPR_ARRAY_INDEX_ASTERISK ∨ usizeOfI32 i = 0 then
          extract_json other sub_path_legs
        else []
    | PathLeg.Key key =>
      match j with
      | Json.Object map =>
        if key = PATH_EXPR_ASTERISK then
          (map.attach.map (fun e => extract_json e.1.2 sub_path_legs)).flatten
        else
          match hf : objectFind map key with
          | some e => extract_json e.2 sub_path_legs
          | none => []
      | _ => []
    | PathLeg.DoubleAsterisk =>
      extract_json j sub_path_legs ++
      (match j with
       | Json.Array array =>
         (array.attach.map (fun c => extract_json c.1 path_legs)).flatten
       | Json.Object map =>
         (map.attach.map (fun e => extract_json e.1.2 path_legs)).flatten
       | _ => [])
termination_by (sizeOf j, path_legs.length)
decreasing_by
  all_goals simp_wf
  · exact Prod.Lex.left _ _ (by have := List.sizeOf_lt_of_mem c.2; omega)
  · exact Prod.Lex.left _ _
      (by have hm : array.get ⟨usizeOfI32 i, h⟩ ∈ array :=
            List.get_mem array (usizeOfI32 i) h
          have := List.sizeOf_lt_of_mem hm
          simp at this ⊢; omega)
  · exact Prod.Lex.right _ (by omega)
  · exact Prod.Lex.left _ _
      (by obtain ⟨⟨a, b⟩, hm⟩ := e
          have := List.sizeOf_lt_of_mem hm
          simp at this ⊢; omega)
  · exact Prod.Lex.left _ _
      (by have := List.sizeOf_lt_of_mem (List.mem_of_find?_eq_some hf)
          obtain ⟨a, b⟩ := e
          simp at this ⊢; omega)
  · exact Prod.Lex.right _ (by omega)
  · exact Prod.Lex.left _ _ (by have := List.sizeOf_lt_of_mem c.2; omega)
  · exact Prod.Lex.left _ _
      (by obtain ⟨⟨a, b⟩, hm⟩ := e
          have := List.sizeOf_lt_of_mem hm
          simp at this ⊢; omega)

instance : Inhabited Json := ⟨Json.None⟩

/-- The children of a node in traversal order: array elements in array
order, object entry values in key order, nothing for scalars and null
(spec section 4.1, double-wildcard case). -/
def jsonChildren : Json → List Json
  | Json.Array array => array
  | Json.Object map => map.map (fun e => e.2)
  | _ => []

/-- Whether a node is an array (the discrimination done by the `match` in
the `Index` arm of `extract_json`). -/
def isArray : Json → Bool
  | Json.Array _ => true
  | _ => false

/-- Whether a node is an object (the discrimination done by the `if let`
in the `Key` arm of `extract_json`). -/
def isObject : Json → Bool
  | Json.Object _ => true
  | _ => false

/-- Translation of `Json::extract` (functions.rs:35-49): run every path
expression in order, appending the matches into one list; an empty combined
list yields the no-match indicator, a single match of a single expression
is returned bare, anything else is wrapped into one array. -/
def extract (j : Json) (path_expr_list : List PathExpression) : Option Json :=
  let elem_list :=
    path_expr_list.foldl (fun acc pe => acc ++ extract_json j pe.legs) []
  if elem_list.isEmpty then none
  else if path_expr_list.length == 1 && elem_list.length == 1 then
    elem_list.head?
  else some (Json.Array elem_list)

/-- The combined match sequence assembled by the loop of `Json::extract`:
the per-expression match lists, concatenated in the order given. -/
def combinedMatches (j : Json) (path_expr_list : List PathExpression) : List Json :=
  (path_expr_list.map (fun pe => extract_json j pe.legs)).flatten

/-- The escape-size constant of functions.rs:22. -/
def ESCAPED_UNICODE_BYTES_SIZE : Nat := 4

/-- functions.rs:25. -/
def CHAR_BACKSPACE : Char := '\x08'

/-- functions.rs:26. -/
def CHAR_HORIZONTAL_TAB : Char := '\x09'

/-- functions.rs:27. -/
def CHAR_LINEFEED : Char := '\x0A'

/-- functions.rs:28. -/
def CHAR_FORMFEED : Char := '\x0C'

/-- functions.rs:29. -/
def CHAR_CARRIAGE_RETURN : Char := '\x0D'

/-- The failure cases of `unquote_string` and `decode_escaped_unicode`,
one constructor per `box_err!`/`try!` site.  The spec groups
`incompleteEscape` as IncompleteEscape and the other five as
InvalidUnicode. -/
inductive UnquoteError where
  | incompleteEscape : UnquoteError
  | invalidUnicodeByteLen : UnquoteError
  | invalidUtf8 : UnquoteError
  | invalidUnicodeCharLen : UnquoteError
  | invalidHex : UnquoteError
  | invalidCodePoint : UnquoteError
deriving DecidableEq

/-- The value of an ASCII hexadecimal digit code point, as accepted by the
Rust integer parser in radix 16. -/
def hexValN (c : Nat) : Option Nat :=
  if 48 ≤ c ∧ c ≤ 57 then some (c - 48)
  else if 97 ≤ c ∧ c ≤ 102 then some (c - 87)
  else if 65 ≤ c ∧ c ≤ 70 then some (c - 55)
  else none

/-- The digit-accumulation loop of `u32::from_str_radix` in radix 16 with
checked `u32` arithmetic: fails on a non-digit or on overflow. -/
def hexAccum (acc : Nat) (cps : List Nat) : Option Nat :=
  match cps with
  | [] => some acc
  | c :: rest =>
    match hexValN c with
    | none => none
    | some v =>
      if acc * 16 + v < 2 ^ 32 then hexAccum (acc * 16 + v) rest else none

/-- All-digit parse of a nonempty digit string (the body of
`u32::from_str_radix` after the sign has been stripped). -/
def hexDigits (cps : List Nat) : Option Nat :=
  if cps.isEmpty then none else hexAccum 0 cps

/-- `u32::from_str_radix(s, 16)` on the code points of `s`: an optional
leading sign (a `-` is accepted by the shared parser but any nonzero
magnitude then underflows the unsigned range), then at least one
hexadecimal digit, accumulated with overflow checking. -/
def from_str_radix_16 (cps : List Nat) : Option Nat :=
  match cps with
  | [] => none
  | c :: rest =>
    if c = 43 then hexDigits rest
    else if c = 45 then
      match hexDigits rest with
      | some 0 => some 0
      | _ => none
    else hexDigits cps

/-- `char::from_u32`: succeeds exactly on Unicode scalar values (below the
surrogate range, or between it and 0x110000). -/
def char_from_u32 (u : Nat) : Option Char :=
  if u < 0xD800 ∨ (0xE000 ≤ u ∧ u < 0x110000) then some (Char.ofNat u)
  else none

/-- Translation of `decode_escaped_unicode` (functions.rs:106-109), acting
on the code points of the 4-byte hex string: radix-16 parse, then
`char::from_u32`. -/
def decode_escaped_unicode (cps : List Nat) : Except UnquoteError Char :=
  match from_str_radix_16 cps with
  | none => Except.error UnquoteError.invalidHex
  | some u =>
    match char_from_u32 u with
    | none => Except.error UnquoteError.invalidCodePoint
    | some c => Except.ok c

/-- The UTF-8 encoding of one Unicode scalar value, as a byte list. -/
def utf8EncodeCp (c : Nat) : List Nat :=
  if c < 0x80 then [c]
  else if c < 0x800 then [0xC0 + c / 64, 0x80 + c % 64]
  else if c < 0x10000 then
    [0xE0 + c / 4096, 0x80 + c / 64 % 64, 0x80 + c % 64]
  else
    [0xF0 + c / 262144, 0x80 + c / 4096 % 64, 0x80 + c / 64 % 64, 0x80 + c % 64]

/-- The UTF-8 byte representation of a Rust `&str` holding the given
characters (`str::as_bytes`). -/
def utf8Encode (s : List Char) : List Nat :=
  (s.map (fun c => utf8EncodeCp c.toNat)).flatten

/-- The number of bytes the UTF-8 encoding of one scalar value occupies. -/
def cpUtf8Len (c : Nat) : Nat :=
  if c < 0x80 then 1
  else if c < 0x800 then 2
  else if c < 0x10000 then 3
  else 4

/-- The UTF-8 byte length (Rust `str::len`) of a string holding the given
code points. -/
def cpsUtf8Len (cps : List Nat) : Nat := (cps.map cpUtf8Len).sum

/-- One step of UTF-8 validation as performed by `str::from_utf8`: reads
one encoded scalar value off the front of the byte string (continuation
bytes in range, no overlong forms, no surrogates, nothing above 0x10FFFF)
and returns it with the remaining bytes. -/
def decodeOne : List Nat → Option (Prod Nat (List Nat))
  | [] => none
  | b :: rest =>
    if b < 0x80 then some (b, rest)
    else if b < 0xC2 then none
    else if b < 0xE0 then
      match rest with
      | b2 :: rest2 =>
        if 0x80 ≤ b2 ∧ b2 < 0xC0 then
          some ((b - 0xC0) * 64 + (b2 - 0x80), rest2)
        else none
      | [] => none
    else if b < 0xF0 then
      match rest with
      | b2 :: b3 :: rest3 =>
        if (if b = 0xE0 then 0xA0 else 0x80) ≤ b2 ∧
            b2 < (if b = 0xED then 0xA0 else 0xC0) ∧
            0x80 ≤ b3 ∧ b3 < 0xC0 then
          some ((b - 0xE0) * 4096 + (b2 - 0x80) * 64 + (b3 - 0x80), rest3)
        else none
      | _ => none
    else if b < 0xF5 then
      match rest with
      | b2 :: b3 :: b4 :: rest4 =>
        if (if b = 0xF0 then 0x90 else 0x80) ≤ b2 ∧
            b2 < (if b = 0xF4 then 0x90 else 0xC0) ∧
            0x80 ≤ b3 ∧ b3 < 0xC0 ∧ 0x80 ≤ b4 ∧ b4 < 0xC0 then
          some ((b - 0xF0) * 262144 + (b2 - 0x80) * 4096 +
            (b3 - 0x80) * 64 + (b4 - 0x80), rest4)
        else none
      | _ => none
    else none

/-- The validation loop of `str::from_utf8`, with a fuel argument bounding
the number of decoded characters (one byte of the input pays for at least
one character, so `bs.length` fuel always suffices). -/
def from_utf8_go (fuel : Nat) (bs : List Nat) : Option (List Nat) :=
  match bs with
  | [] => some []
  | _ :: _ =>
    match fuel with
    | 0 => none
    | Nat.succ n =>
      match decodeOne bs with
      | none => none
      | some (cp, rest) => (from_utf8_go n rest).map (fun cs => cp :: cs)

/-- `str::from_utf8` as a decoder into code points: accepts exactly the
valid UTF-8 byte strings and yields the decoded scalar values. -/
def from_utf8 (bs : List Nat) : Option (List Nat) := from_utf8_go bs.length bs

/-- Translation of `unquote_string` (functions.rs:62-104) over the
character sequence of the input string.  The `ret` string grown by `push`
is rendered by consing the produced character onto the recursive result;
`chars.as_str().as_bytes()` is the UTF-8 encoding of the not yet consumed
characters, and the four `chars.next()` calls after a decoded escape drop
four characters. -/
def unquote_string (s : List Char) : Except UnquoteError (List Char) :=
  match s with
  | [] => Except.ok []
  | ch :: rest =>
    if ch = '\\' then
      match rest with
      | [] => Except.error UnquoteError.incompleteEscape
      | c :: rest2 =>
        if c = '"' then (unquote_string rest2).map (fun t => '"' :: t)
        else if c = 'b' then (unquote_string rest2).map (fun t => CHAR_BACKSPACE :: t)
        else if c = 'f' then (unquote_string rest2).map (fun t => CHAR_FORMFEED :: t)
        else if c = 'n' then (unquote_string rest2).map (fun t => CHAR_LINEFEED :: t)
        else if c = 'r' then
          (unquote_string rest2).map (fun t => CHAR_CARRIAGE_RETURN :: t)
        else if c = 't' then
          (unquote_string rest2).map (fun t => CHAR_HORIZONTAL_TAB :: t)
        else if c = '\\' then (unquote_string rest2).map (fun t => '\\' :: t)
        else if c = 'u' then
          let b := utf8Encode rest2
          if b.length < ESCAPED_UNICODE_BYTES_SIZE then
            Except.error UnquoteError.invalidUnicodeByteLen
          else
            match from_utf8 (b.take ESCAPED_UNICODE_BYTES_SIZE) with
            | none => Except.error UnquoteError.invalidUtf8
            | some unicode =>
              if cpsUtf8Len unicode ≠ ESCAPED_UNICODE_BYTES_SIZE then
                Except.error UnquoteError.invalidUnicodeCharLen
              else
                match decode_escaped_unicode unicode with
                | Except.error e => Except.error e
                | Except.ok utf8 =>
                  (unquote_string (rest2.drop ESCAPED_UNICODE_BYTES_SIZE)).map
                    (fun t => utf8 :: t)
        else (unquote_string rest2).map (fun t => c :: t)
    else (unquote_string rest).map (fun t => ch :: t)
termination_by s.length
decreasing_by
  all_goals simp_wf
  all_goals omega

/-- The translation table of the seven simple escapes of
functions.rs:72-78. -/
def simpleEscape (c : Char) : Option Char :=
  if c = '"' then some '"'
  else if c = 'b' then some CHAR_BACKSPACE
  else if c = 'f' then some CHAR_FORMFEED
  else if c = 'n' then some CHAR_LINEFEED
  else if c = 'r' then some CHAR_CARRIAGE_RETURN
  else if c = 't' then some CHAR_HORIZONTAL_TAB
  else if c = '\\' then some '\\'
  else none

/-- The body of the `u` arm of `unquote_string` (functions.rs:79-93),
with `rest2` the characters following the `u`. -/
def uBranch (rest2 : List Char) : Except UnquoteError (List Char) :=
  if (utf8Encode rest2).length < ESCAPED_UNICODE_BYTES_SIZE then
    Except.error UnquoteError.invalidUnicodeByteLen
  else
    match from_utf8 ((utf8Encode rest2).take ESCAPED_UNICODE_BYTES_SIZE) with
    | none => Except.error UnquoteError.invalidUtf8
    | some unicode =>
      if cpsUtf8Len unicode ≠ ESCAPED_UNICODE_BYTES_SIZE then
        Except.error UnquoteError.invalidUnicodeCharLen
      else
        match decode_escaped_unicode unicode with
        | Except.error e => Except.error e
        | Except.ok utf8 =>
          (unquote_string (rest2.drop ESCAPED_UNICODE_BYTES_SIZE)).map
            (fun t => utf8 :: t)

/-- Unfolding of `extract_json` at an empty leg list (functions.rs:113-115). -/
theorem extract_json_nil (j : Json) : extract_json j [] = [j] := by
  rw [extract_json.eq_def]

/-- Unfolding of `extract_json` at an `Index` leg on an array
(functions.rs:121-129). -/
theorem extract_json_index_array (i : Int) (array : List Json) (rest : List PathLeg) :
    extract_json (Json.Array array) (PathLeg.Index i :: rest) =
      if i = PATH_EXPR_ARRAY_INDEX_ASTERISK then
        (array.map (fun c => extract_json c rest)).flatten
      else if h : usizeOfI32 i < array.length then
        extract_json (array.get ⟨usizeOfI32 i, h⟩) rest
      else [] := by
  rw [extract_json.eq_def]
  simp [List.attach_map_coe]

/-- Unfolding of `extract_json` at an `Index` leg on a non-array
(functions.rs:130-134). -/
theorem extract_json_index_nonarray (i : Int) (j : Json) (rest : List PathLeg)
    (hna : isArray j = false) :
    extract_json j (PathLeg.Index i :: rest) =
      if i = PATH_EXPR_ARRAY_INDEX_ASTERISK ∨ usizeOfI32 i = 0 then
        extract_json j rest
      else [] := by
  cases j <;> simp only [isArray, Bool.true_eq_false] at hna
  all_goals (rw [extract_json.eq_def]; try simp)

/-- Unfolding of `extract_json` at a `Key` leg on an object
(functions.rs:138-146). -/
theorem extract_json_key_object (k : List Char) (map : List (Prod (List Char) Json))
    (rest : List PathLeg) :
    extract_json (Json.Object map) (PathLeg.Key k :: rest) =
      if k = PATH_EXPR_ASTERISK then
        (map.map (fun e => extract_json e.2 rest)).flatten
      else
        match objectFind map k with
        | some e => extract_json e.2 rest
        | none => [] := by
  rw [extract_json.eq_def]
  dsimp only
  split
  · exact congrArg List.flatten (List.attach_map_coe map (fun x => extract_json x.2 rest))
  · split
    · rename_i e hf
      rw [hf]
    · rename_i hf
      rw [hf]

/-- Unfolding of `extract_json` at a `Key` leg on a non-object
(functions.rs:137-147: the `if let` does not fire). -/
theorem extract_json_key_nonobject (k : List Char) (j : Json) (rest : List PathLeg)
    (hno : isObject j = false) :
    extract_json j (PathLeg.Key k :: rest) = [] := by
  cases j <;> simp only [isObject, Bool.true_eq_false] at hno
  all_goals (rw [extract_json.eq_def]; try simp)

/-- Unfolding of `extract_json` at a `DoubleAsterisk` leg
(functions.rs:148-163): the remaining legs at the current node, then the
full leg list replayed at every child. -/
theorem extract_json_double (j : Json) (rest : List PathLeg) :
    extract_json j (PathLeg.DoubleAsterisk :: rest) =
      extract_json j rest ++
      ((jsonChildren j).map
        (fun c => extract_json c (PathLeg.DoubleAsterisk :: rest))).flatten := by
  cases j with
  | Array array =>
    rw [extract_json.eq_def]
    simp [jsonChildren, List.attach_map_coe]
  | Object entries =>
    rw [extract_json.eq_def]
    simp only [jsonChildren, List.map_map]
    have h := List.attach_map_coe entries
      (fun x => extract_json x.2 (PathLeg.DoubleAsterisk :: rest))
    rw [h]
    rfl
  | None => rw [extract_json.eq_def]; simp [jsonChildren]
  | Boolean b => rw [extract_json.eq_def]; simp [jsonChildren]
  | I64 v => rw [extract_json.eq_def]; simp [jsonChildren]
  | Double bits => rw [extract_json.eq_def]; simp [jsonChildren]
  | String s => rw [extract_json.eq_def]; simp [jsonChildren]


/-- The `append`-accumulating loop of `Json::extract` computes
`combinedMatches`. -/
theorem foldl_append_extract_json (j : Json) (l : List PathExpression)
    (init : List Json) :
    l.foldl (fun acc pe => acc ++ extract_json j pe.legs) init =
      init ++ (l.map (fun pe => extract_json j pe.legs)).flatten := by
  induction l generalizing init with
  | nil => simp
  | cons pe l ih => simp [ih, List.append_assoc]

/-- Indexed-array case of `extract_json` restated through an arbitrary
name for the cast index. -/
theorem extract_json_index_array_get (array : List Json) (n : Nat)
    (rest : List PathLeg) (h : n < array.length) (i : Int)
    (hu : usizeOfI32 i = n) (hni : i ≠ PATH_EXPR_ARRAY_INDEX_ASTERISK) :
    extract_json (Json.Array array) (PathLeg.Index i :: rest) =
      extract_json (array.get ⟨n, h⟩) rest := by
  subst hu
  rw [extract_json_index_array, if_neg hni, dif_pos h]

/-- The sign-extending cast of an `i32` in `[0, 2^31)` is the identity. -/
theorem usizeOfI32_nonneg (i : Int) (h0 : 0 ≤ i) (h1 : i < 2 ^ 31) :
    usizeOfI32 i = i.toNat := by
  unfold usizeOfI32; omega

/-- The sign-extending cast of a negative `i32` lands above `2^64 - 2^31`. -/
theorem usizeOfI32_neg (i : Int) (h0 : -(2 ^ 31) ≤ i) (h1 : i < 0) :
    2 ^ 64 - 2 ^ 31 ≤ usizeOfI32 i := by
  unfold usizeOfI32; omega

/-- C7: for every JSON value node, `extract_json` applied to an empty leg
list returns exactly the singleton sequence containing the node itself. -/
theorem extract_json_empty_legs_singleton (j : Json) : extract_json j [] = [j] :=
  extract_json_nil j

/-- C8: for every node and remaining leg list `rest`, the sequence
`extract_json node rest` is an ordered prefix of
`extract_json node (DoubleAsterisk :: rest)`: the latter is the former
followed by some tail, preserving order and duplicates. -/
theorem extract_json_double_has_root_prefix (j : Json) (rest : List PathLeg) :
    ∃ tail, extract_json j (PathLeg.DoubleAsterisk :: rest) =
      extract_json j rest ++ tail :=
  ⟨_, extract_json_double j rest⟩

/-- C1: a double-wildcard leg yields the remaining legs applied at the
current node, concatenated with the full leg list (double-wildcard
included) replayed at every child in order, where the children of an array
are its elements in array order, the children of an object are its entry
values in key order, and scalar and null nodes have no children: a
pre-order depth-first traversal. -/
theorem extract_json_double_wildcard_traversal (j : Json) (rest : List PathLeg) :
    (extract_json j (PathLeg.DoubleAsterisk :: rest) =
      extract_json j rest ++
      ((jsonChildren j).map
        (fun c => extract_json c (PathLeg.DoubleAsterisk :: rest))).flatten)
    ∧ (∀ a : List Json, jsonChildren (Json.Array a) = a)
    ∧ (∀ m : List (Prod (List Char) Json),
        jsonChildren (Json.Object m) = m.map (fun e => e.2))
    ∧ (isArray j = false → isObject j = false → jsonChildren j = []) :=
  ⟨extract_json_double j rest, fun _ => rfl, fun _ => rfl, by
    cases j <;> simp [isArray, isObject, jsonChildren]⟩

/-- Witness for C1 at a scalar node. -/
theorem extract_json_double_wildcard_traversal_witness :
    isArray (Json.I64 21) = false ∧ isObject (Json.I64 21) = false ∧
      jsonChildren (Json.I64 21) = [] :=
  ⟨rfl, rfl, (extract_json_double_wildcard_traversal (Json.I64 21) []).2.2.2 rfl rfl⟩

/-- C9: extraction with an empty list of path expressions does not fail:
it yields the no-match indicator. -/
theorem extract_no_exprs_is_none (j : Json) : extract j [] = none := rfl

/-- C5: an `Index(i)` leg on an array concatenates the per-element results
when `i` is the wildcard sentinel, recurses into element `i` when
`0 ≤ i < length`, and yields empty otherwise; on a non-array it recurses
into the node itself when `i` is the sentinel or `i = 0` (implicit
single-element-array autowrap) and yields empty otherwise.  The index is an
`i32` and the array length is bounded by `isize::MAX` as in Rust. -/
theorem extract_json_index_leg (i : Int) (array : List Json) (j : Json)
    (rest : List PathLeg) (hlo : -(2 ^ 31) ≤ i) (hhi : i < 2 ^ 31)
    (hlen : array.length < 2 ^ 63) :
    (i = PATH_EXPR_ARRAY_INDEX_ASTERISK →
      extract_json (Json.Array array) (PathLeg.Index i :: rest) =
        (array.map (fun c => extract_json c rest)).flatten)
    ∧ (∀ _h0 : 0 ≤ i, ∀ hlt : i.toNat < array.length,
      extract_json (Json.Array array) (PathLeg.Index i :: rest) =
        extract_json (array.get ⟨i.toNat, hlt⟩) rest)
    ∧ (i ≠ PATH_EXPR_ARRAY_INDEX_ASTERISK → ¬(0 ≤ i ∧ i.toNat < array.length) →
      extract_json (Json.Array array) (PathLeg.Index i :: rest) = [])
    ∧ (isArray j = false →
      ((i = PATH_EXPR_ARRAY_INDEX_ASTERISK ∨ i = 0 →
        extract_json j (PathLeg.Index i :: rest) = extract_json j rest)
      ∧ (i ≠ PATH_EXPR_ARRAY_INDEX_ASTERISK → i ≠ 0 →
        extract_json j (PathLeg.Index i :: rest) = []))) := by
  refine ⟨?_, ?_, ?_, ?_⟩
  · intro hast
    rw [extract_json_index_array, if_pos hast]
  · intro h0 hlt
    refine extract_json_index_array_get array i.toNat rest hlt i ?_ ?_
    · exact usizeOfI32_nonneg i h0 hhi
    · unfold PATH_EXPR_ARRAY_INDEX_ASTERISK; omega
  · intro hast hout
    rw [extract_json_index_array, if_neg hast, dif_neg]
    rcases lt_or_le i 0 with hneg | hpos
    · have h1 : i < -1 ∨ i = -1 := by omega
      have h2 : i ≠ -1 := by
        intro he; exact hast (by unfold PATH_EXPR_ARRAY_INDEX_ASTERISK; omega)
      have := usizeOfI32_neg i hlo hneg
      omega
    · have := usizeOfI32_nonneg i hpos hhi
      omega
  · intro hna
    constructor
    · intro hor
      rw [extract_json_index_nonarray i j rest hna, if_pos]
      rcases hor with hast | h0
      · exact Or.inl hast
      · exact Or.inr (by subst h0; rfl)
    · intro hast h0
      rw [extract_json_index_nonarray i j rest hna, if_neg]
      rintro (ha | hz)
      · exact hast ha
      · exact h0 (by unfold usizeOfI32 at hz; omega)

/-- Witness for C5: a two-element array indexed at 0, and a scalar
autowrapped at index 0. -/
theorem extract_json_index_leg_witness :
    (-(2 ^ 31) ≤ (0 : Int) ∧ (0 : Int) < 2 ^ 31 ∧
      [Json.Boolean true, Json.I64 2017].length < 2 ^ 63) ∧
    extract_json (Json.Array [Json.Boolean true, Json.I64 2017])
        (PathLeg.Index 0 :: []) =
      extract_json (Json.Boolean true) [] ∧
    extract_json (Json.I64 618) (PathLeg.Index 0 :: []) =
      extract_json (Json.I64 618) [] := by
  refine ⟨by decide, ?_, ?_⟩
  · exact (extract_json_index_leg 0 [Json.Boolean true, Json.I64 2017]
      Json.None [] (by decide) (by decide) (by decide)).2.1 (by decide) (by decide)
  · exact ((extract_json_index_leg 0 [] (Json.I64 618) []
      (by decide) (by decide) (by decide)).2.2.2 rfl).1 (Or.inr rfl)

/-- C6: a `Key(k)` leg matches only objects: the wildcard sentinel key
concatenates the results over every entry value in key order, an existing
key recurses into its value, a missing key and every non-object node yield
empty. -/
theorem extract_json_key_leg (k : List Char) (m : List (Prod (List Char) Json))
    (j : Json) (rest : List PathLeg) :
    (extract_json (Json.Object m) (PathLeg.Key PATH_EXPR_ASTERISK :: rest) =
      (m.map (fun e => extract_json e.2 rest)).flatten)
    ∧ (∀ e, k ≠ PATH_EXPR_ASTERISK → objectFind m k = some e →
      extract_json (Json.Object m) (PathLeg.Key k :: rest) = extract_json e.2 rest)
    ∧ (k ≠ PATH_EXPR_ASTERISK → objectFind m k = none →
      extract_json (Json.Object m) (PathLeg.Key k :: rest) = [])
    ∧ (isObject j = false → extract_json j (PathLeg.Key k :: rest) = []) := by
  refine ⟨?_, ?_, ?_, ?_⟩
  · rw [extract_json_key_object, if_pos rfl]
  · intro e hk hfind
    rw [extract_json_key_object, if_neg hk, hfind]
  · intro hk hfind
    rw [extract_json_key_object, if_neg hk, hfind]
  · intro hno
    exact extract_json_key_nonobject k j rest hno

/-- Witness for C6: looking up the key `c` in a one-entry object. -/
theorem extract_json_key_leg_witness :
    (['c'] ≠ PATH_EXPR_ASTERISK ∧
      objectFind [(['c'], Json.Boolean false)] ['c'] =
        some (['c'], Json.Boolean false)) ∧
    extract_json (Json.Object [(['c'], Json.Boolean false)])
        (PathLeg.Key ['c'] :: []) =
      extract_json (Json.Boolean false) [] :=
  ⟨⟨by decide, rfl⟩,
    (extract_json_key_leg ['c'] [(['c'], Json.Boolean false)] Json.None []).2.1
      (['c'], Json.Boolean false) (by decide) rfl⟩

/-- C2: `extract` concatenates the per-expression match lists in order;
it returns the no-match indicator exactly when the combined sequence is
empty, returns the single match bare exactly when one expression was
supplied and the combined sequence is a singleton, and otherwise wraps the
whole combined sequence in one array value. -/
theorem extract_shape (j : Json) (pes : List PathExpression) :
    (extract j pes = none ↔ combinedMatches j pes = [])
    ∧ (∀ x, pes.length = 1 → combinedMatches j pes = [x] →
        extract j pes = some x)
    ∧ (combinedMatches j pes ≠ [] →
        ¬(pes.length = 1 ∧ (combinedMatches j pes).length = 1) →
        extract j pes = some (Json.Array (combinedMatches j pes))) := by
  have hfold : pes.foldl (fun acc pe => acc ++ extract_json j pe.legs) [] =
      combinedMatches j pes := by
    rw [foldl_append_extract_json]; rfl
  unfold extract
  rw [hfold]
  refine ⟨?_, ?_, ?_⟩
  · constructor
    · intro hnone
      by_cases he : (combinedMatches j pes).isEmpty
      · exact List.isEmpty_iff.mp he
      · exfalso
        rw [if_neg (by simp [he])] at hnone
        by_cases hone : pes.length == 1 && (combinedMatches j pes).length == 1
        · rw [if_pos hone] at hnone
          rcases hcm : combinedMatches j pes with _ | ⟨x, tl⟩
          · exact he (by simp [hcm])
          · rw [hcm] at hnone; simp at hnone
        · rw [if_neg hone] at hnone; simp at hnone
    · intro hemp
      rw [if_pos (by simp [hemp])]
  · intro x hlen hcm
    rw [hcm]
    rw [if_neg (by simp), if_pos (by simp [hlen, hcm])]
    rfl
  · intro hne hmulti
    rw [if_neg (by simpa using hne), if_neg]
    simp only [Bool.and_eq_true, beq_iff_eq]
    exact fun h => hmulti ⟨h.1, h.2⟩

/-- Witness for C2: one expression, one match, returned bare. -/
theorem extract_shape_witness :
    ([PathExpression.mk [] 0].length = 1 ∧
      combinedMatches (Json.I64 7) [PathExpression.mk [] 0] = [Json.I64 7]) ∧
    extract (Json.I64 7) [PathExpression.mk [] 0] = some (Json.I64 7) := by
  refine ⟨⟨rfl, ?_⟩, ?_⟩
  · show (List.map _ _).flatten = _
    rw [List.map_singleton, extract_json_nil]
    rfl
  · refine (extract_shape (Json.I64 7) [PathExpression.mk [] 0]).2.1
      (Json.I64 7) rfl ?_
    show (List.map _ _).flatten = _
    rw [List.map_singleton, extract_json_nil]
    rfl

/-- Unfolding of `unquote_string` on the empty string. -/
theorem unquote_string_empty : unquote_string [] = Except.ok [] := by
  rw [unquote_string.eq_def]

/-- Unfolding of `unquote_string` on an unescaped character
(functions.rs:99-101). -/
theorem unquote_string_plain (ch : Char) (rest : List Char) (h : ch ≠ '\\') :
    unquote_string (ch :: rest) = (unquote_string rest).map (fun t => ch :: t) := by
  rw [unquote_string.eq_def]
  simp [h]

/-- Unfolding of `unquote_string` on a trailing backslash
(functions.rs:67-70). -/
theorem unquote_string_dangling :
    unquote_string ['\\'] = Except.error UnquoteError.incompleteEscape := by
  rw [unquote_string.eq_def]
  simp

/-- Unfolding of `unquote_string` on one of the seven simple escapes
(functions.rs:72-78). -/
theorem unquote_string_escape_simple (c x : Char) (rest2 : List Char)
    (h : simpleEscape c = some x) :
    unquote_string ('\\' :: c :: rest2) =
      (unquote_string rest2).map (fun t => x :: t) := by
  unfold simpleEscape at h
  split_ifs at h with h1 h2 h3 h4 h5 h6 h7 <;>
    (injection h with hx; subst hx; subst_vars; rw [unquote_string.eq_def]; simp)

/-- Unfolding of `unquote_string` on a unicode escape
(functions.rs:79-93). -/
theorem unquote_string_escape_u (rest2 : List Char) :
    unquote_string ('\\' :: 'u' :: rest2) = uBranch rest2 := by
  rw [unquote_string.eq_def, uBranch]
  simp

/-- Unfolding of `unquote_string` on an unrecognized escape: the
backslash is dropped (functions.rs:94-97). -/
theorem unquote_string_escape_other (c : Char) (rest2 : List Char)
    (h : simpleEscape c = none) (hu : c ≠ 'u') :
    unquote_string ('\\' :: c :: rest2) =
      (unquote_string rest2).map (fun t => c :: t) := by
  unfold simpleEscape at h
  split_ifs at h with h1 h2 h3 h4 h5 h6 h7
  rw [unquote_string.eq_def]
  simp [h1, h2, h3, h4, h5, h6, h7, hu]

/-- `Except.map` never changes which error is produced. -/
theorem except_map_eq_error {α β ε : Type} (f : α → β) (r : Except ε α) (e : ε) :
    r.map f = Except.error e ↔ r = Except.error e := by
  cases r <;> simp [Except.map]

/-- A successful validation step consumes exactly the encoded length of
the produced scalar value, consumes at least one byte, and consumes
exactly the scalar itself when it is ASCII. -/
theorem decodeOne_spec (bs : List Nat) (cp : Nat) (rest : List Nat)
    (h : decodeOne bs = some (cp, rest)) :
    cpUtf8Len cp + rest.length = bs.length ∧
    (cp < 128 → bs = cp :: rest) ∧ rest.length < bs.length := by
  match bs with
  | [] => simp [decodeOne] at h
  | b :: tail =>
    simp only [decodeOne] at h
    by_cases h1 : b < 128
    · rw [if_pos h1] at h
      injection h with h
      injection h with he1 he2
      subst he1; subst he2
      refine ⟨?_, ?_, ?_⟩
      · unfold cpUtf8Len; rw [if_pos h1]; simp only [List.length_cons]; omega
      · intro; rfl
      · simp only [List.length_cons]; omega
    · rw [if_neg h1] at h
      by_cases h2 : b < 194
      · rw [if_pos h2] at h; exact absurd h (by simp)
      · rw [if_neg h2] at h
        by_cases h3 : b < 224
        · rw [if_pos h3] at h
          match tail with
          | [] => exact absurd h (by simp)
          | b2 :: rest2 =>
            dsimp only at h
            by_cases hb : 128 ≤ b2 ∧ b2 < 192
            · rw [if_pos hb] at h
              injection h with h
              injection h with he1 he2
              subst he1; subst he2
              refine ⟨?_, by omega, by simp only [List.length_cons]; omega⟩
              have : cpUtf8Len ((b - 192) * 64 + (b2 - 128)) = 2 := by
                unfold cpUtf8Len
                rw [if_neg (by omega), if_pos (by omega)]
              rw [this]; simp only [List.length_cons]; omega
            · rw [if_neg hb] at h; exact absurd h (by simp)
        · rw [if_neg h3] at h
          by_cases h4 : b < 240
          · rw [if_pos h4] at h
            match tail with
            | [] => exact absurd h (by simp)
            | [b2] => exact absurd h (by simp)
            | b2 :: b3 :: rest3 =>
              dsimp only at h
              by_cases hb : (if b = 224 then 160 else 128) ≤ b2 ∧
                  (b2 < if b = 237 then 160 else 192) ∧ 128 ≤ b3 ∧ b3 < 192
              · rw [if_pos hb] at h
                injection h with h
                injection h with he1 he2
                subst he1; subst he2
                obtain ⟨hba, hbb, hbc, hbd⟩ := hb
                have hb2lo : 128 ≤ b2 := by
                  by_cases hc : b = 224 <;> simp [hc] at hba <;> omega
                have hb2hi : b2 < 192 := by
                  by_cases hc : b = 237 <;> simp [hc] at hbb <;> omega
                have hcp : 2048 ≤ (b - 224) * 4096 + (b2 - 128) * 64 + (b3 - 128) ∧
                    (b - 224) * 4096 + (b2 - 128) * 64 + (b3 - 128) < 65536 := by
                  by_cases hc : b = 224
                  · rw [if_pos hc] at hba; subst hc; omega
                  · omega
                refine ⟨?_, by omega, by simp only [List.length_cons]; omega⟩
                have : cpUtf8Len ((b - 224) * 4096 + (b2 - 128) * 64 + (b3 - 128)) = 3 := by
                  unfold cpUtf8Len
                  rw [if_neg (by omega), if_neg (by omega), if_pos (by omega)]
                rw [this]; simp only [List.length_cons]; omega
              · rw [if_neg hb] at h; exact absurd h (by simp)
          · rw [if_neg h4] at h
            by_cases h5 : b < 245
            · rw [if_pos h5] at h
              match tail with
              | [] => exact absurd h (by simp)
              | [b2] => exact absurd h (by simp)
              | [b2, b3] => exact absurd h (by simp)
              | b2 :: b3 :: b4 :: rest4 =>
                dsimp only at h
                by_cases hb : (if b = 240 then 144 else 128) ≤ b2 ∧
                    (b2 < if b = 244 then 144 else 192) ∧
                    128 ≤ b3 ∧ b3 < 192 ∧ 128 ≤ b4 ∧ b4 < 192
                · rw [if_pos hb] at h
                  injection h with h
                  injection h with he1 he2
                  subst he1; subst he2
                  obtain ⟨hba, hbb, hbc, hbd, hbe, hbf⟩ := hb
                  have hb2lo : 128 ≤ b2 := by
                    by_cases hc : b = 240 <;> simp [hc] at hba <;> omega
                  have hcp : 65536 ≤ (b - 240) * 262144 + (b2 - 128) * 4096 +
                      (b3 - 128) * 64 + (b4 - 128) := by
                    by_cases hc : b = 240
                    · rw [if_pos hc] at hba; subst hc; omega
                    · omega
                  refine ⟨?_, by omega, by simp only [List.length_cons]; omega⟩
                  have : cpUtf8Len ((b - 240) * 262144 + (b2 - 128) * 4096 +
                      (b3 - 128) * 64 + (b4 - 128)) = 4 := by
                    unfold cpUtf8Len
                    rw [if_neg (by omega), if_neg (by omega), if_neg (by omega)]
                  rw [this]; simp only [List.length_cons]; omega
                · rw [if_neg hb] at h; exact absurd h (by simp)
            · rw [if_neg h5] at h; exact absurd h (by simp)

/-- The validation loop does not depend on the fuel once the fuel covers
the byte length. -/
theorem from_utf8_go_congr : ∀ (n : Nat) (bs : List Nat), bs.length ≤ n →
    ∀ m, bs.length ≤ m → from_utf8_go n bs = from_utf8_go m bs := by
  intro n
  induction n with
  | zero =>
    intro bs hn m _
    have : bs = [] := by cases bs <;> simp_all
    subst this
    cases m <;> rfl
  | succ n ih =>
    intro bs hn m hm
    cases bs with
    | nil => cases m <;> rfl
    | cons b tail =>
      cases m with
      | zero => simp at hm
      | succ m' =>
        simp only [from_utf8_go]
        cases hd : decodeOne (b :: tail) with
        | none => rfl
        | some pr =>
          obtain ⟨cp, rest⟩ := pr
          dsimp only
          have hlen := (decodeOne_spec (b :: tail) cp rest hd).2.2
          simp only [List.length_cons] at hn hm hlen
          rw [ih rest (by omega) m' (by omega)]

/-- Unfolding of `from_utf8` on a nonempty byte string: one validation
step, then the rest. -/
theorem from_utf8_cons (b : Nat) (tail : List Nat) :
    from_utf8 (b :: tail) =
      match decodeOne (b :: tail) with
      | none => none
      | some (cp, rest) => (from_utf8 rest).map (fun cs => cp :: cs) := by
  show from_utf8_go (b :: tail).length (b :: tail) = _
  simp only [from_utf8_go, List.length_cons]
  cases hd : decodeOne (b :: tail) with
  | none => rfl
  | some pr =>
    obtain ⟨cp, rest⟩ := pr
    dsimp only
    have hlen := (decodeOne_spec (b :: tail) cp rest hd).2.2
    simp only [List.length_cons] at hlen
    rw [from_utf8_go_congr tail.length rest (by omega) rest.length (by omega)]
    rfl

/-- Validation success determines the byte length: the produced scalar
values re-encode to exactly as many bytes as were consumed; and an
all-ASCII result can only come from the identical byte string. -/
theorem from_utf8_spec : ∀ (bs cps : List Nat), from_utf8 bs = some cps →
    cpsUtf8Len cps = bs.length ∧ ((∀ c ∈ cps, c < 128) → bs = cps) := by
  have main : ∀ (n : Nat) (bs : List Nat), bs.length ≤ n → ∀ cps,
      from_utf8 bs = some cps →
      cpsUtf8Len cps = bs.length ∧ ((∀ c ∈ cps, c < 128) → bs = cps) := by
    intro n
    induction n with
    | zero =>
      intro bs hb cps h
      have : bs = [] := by cases bs <;> simp_all
      subst this
      injection h with h
      subst h
      simp [cpsUtf8Len]
    | succ n ih =>
      intro bs hb cps h
      cases bs with
      | nil =>
        injection h with h
        subst h
        simp [cpsUtf8Len]
      | cons b tail =>
        rw [from_utf8_cons] at h
        cases hd : decodeOne (b :: tail) with
        | none => rw [hd] at h; exact absurd h (by simp)
        | some pr =>
          obtain ⟨cp, rest⟩ := pr
          rw [hd] at h
          dsimp only at h
          cases hr : from_utf8 rest with
          | none => rw [hr] at h; exact absurd h (by simp)
          | some cs =>
            rw [hr] at h
            simp only [Option.map_some'] at h
            injection h with h
            subst h
            obtain ⟨hlen, hascii, hless⟩ := decodeOne_spec (b :: tail) cp rest hd
            simp only [List.length_cons] at hb hless
            obtain ⟨ihlen, ihascii⟩ := ih rest (by omega) cs hr
            constructor
            · simp only [cpsUtf8Len, List.map_cons, List.sum_cons,
                List.length_cons] at ihlen hlen ⊢
              omega
            · intro hall
              have hcp : cp < 128 := hall cp (by simp)
              have h1 := hascii hcp
              have h2 := ihascii (fun x hx => hall x (List.mem_cons_of_mem cp hx))
              rw [h1, h2]
  intro bs cps h
  exact main bs.length bs le_rfl cps h

/-- The byte string of a concatenation is the concatenation of the byte
strings. -/
theorem utf8Encode_append (a b : List Char) :
    utf8Encode (a ++ b) = utf8Encode a ++ utf8Encode b := by
  simp [utf8Encode]

/-- The escaped-unicode decoder fails only with the hex-parse or
code-point error. -/
theorem decode_escaped_unicode_error (cps : List Nat) (e : UnquoteError)
    (h : decode_escaped_unicode cps = Except.error e) :
    e = UnquoteError.invalidHex ∨ e = UnquoteError.invalidCodePoint := by
  unfold decode_escaped_unicode at h
  cases hp : from_str_radix_16 cps with
  | none =>
    rw [hp] at h
    injection h with h
    exact Or.inl h.symm
  | some u =>
    rw [hp] at h
    dsimp only at h
    cases hc : char_from_u32 u with
    | none =>
      rw [hc] at h
      injection h with h
      exact Or.inr h.symm
    | some c => rw [hc] at h; exact absurd h (by simp)

/-- The char-length re-check of the unicode branch never fires: whenever
UTF-8 validation of the four-byte window succeeds, the validated string is
exactly four bytes long. -/
theorem unquote_string_ne_charlen :
    ∀ s, unquote_string s ≠ Except.error UnquoteError.invalidUnicodeCharLen := by
  have main : ∀ (n : Nat) (s : List Char), s.length ≤ n →
      unquote_string s ≠ Except.error UnquoteError.invalidUnicodeCharLen := by
    intro n
    induction n with
    | zero =>
      intro s hs
      have : s = [] := by cases s <;> simp_all
      subst this
      rw [unquote_string_empty]
      simp
    | succ n ih =>
      intro s hs
      cases s with
      | nil => rw [unquote_string_empty]; simp
      | cons ch rest =>
        simp only [List.length_cons] at hs
        by_cases hbs : ch = '\\'
        · subst hbs
          cases rest with
          | nil => rw [unquote_string_dangling]; simp
          | cons c rest2 =>
            simp only [List.length_cons] at hs
            cases hse : simpleEscape c with
            | some x =>
              rw [unquote_string_escape_simple c x rest2 hse]
              intro h
              exact ih rest2 (by omega) ((except_map_eq_error _ _ _).mp h)
            | none =>
              by_cases hcu : c = 'u'
              · subst hcu
                rw [unquote_string_escape_u]
                unfold uBranch
                simp only [ESCAPED_UNICODE_BYTES_SIZE]
                by_cases hshort : (utf8Encode rest2).length < 4
                · rw [if_pos hshort]; simp
                · rw [if_neg hshort]
                  cases hdec : from_utf8 ((utf8Encode rest2).take 4) with
                  | none => simp
                  | some unicode =>
                    dsimp only
                    have hlen4 : cpsUtf8Len unicode = 4 := by
                      have := (from_utf8_spec _ unicode hdec).1
                      rw [this, List.length_take]
                      omega
                    rw [if_neg (by simp [hlen4])]
                    cases hde : decode_escaped_unicode unicode with
                    | error e =>
                      rcases decode_escaped_unicode_error unicode e hde with
                        rfl | rfl <;> simp
                    | ok ch =>
                      dsimp only
                      intro h
                      exact ih (rest2.drop 4) (by simp [List.length_drop]; omega)
                        ((except_map_eq_error _ _ _).mp h)
              · rw [unquote_string_escape_other c rest2 hse hcu]
                intro h
                exact ih rest2 (by omega) ((except_map_eq_error _ _ _).mp h)
        · rw [unquote_string_plain ch rest hbs]
          intro h
          exact ih rest (by omega) ((except_map_eq_error _ _ _).mp h)
  intro s
  exact main s.length s le_rfl

/-- C10: whenever UTF-8 validation of the four-byte slice after a unicode
escape succeeds, the validated string is exactly as long as the slice, so
the subsequent length re-check can never fire: no input string ever
produces that error. -/
theorem unicode_charlen_check_unreachable :
    (∀ bs cps, from_utf8 bs = some cps → cpsUtf8Len cps = bs.length)
    ∧ (∀ s, unquote_string s ≠ Except.error UnquoteError.invalidUnicodeCharLen) :=
  ⟨fun bs cps h => (from_utf8_spec bs cps h).1, unquote_string_ne_charlen⟩

/-- Witness for C10 on a concrete two-byte string. -/
theorem unicode_charlen_check_unreachable_witness :
    from_utf8 [104, 105] = some [104, 105] ∧
    cpsUtf8Len [104, 105] = [104, 105].length ∧
    unquote_string ['h'] ≠ Except.error UnquoteError.invalidUnicodeCharLen :=
  ⟨by decide, unicode_charlen_check_unreachable.1 [104, 105] [104, 105] (by decide),
    unicode_charlen_check_unreachable.2 ['h']⟩

